import Mathlib

/-!
# Silverleaf — shallow embedding and verification

A shallow embedding of the two scripts of the Silverleaf repository:

* `training_program_editor.py` — an ordered list of curriculum weeks with
  rename-by-position and move-to-position (reposition-and-renumber) operations.
  The Python functions mutate the global `training_program` list and read
  positions and names from the console; here each operation takes the current
  list and the parsed user inputs and returns the printed outcome together
  with the new list.
* `quiz_generation_system.py` — a quiz cache populated by a slow producer
  (`admin_upload_content`) and read by `retrieve_quiz_instantly`.  The global
  dict `QUIZ_CACHE` is embedded as a map from identifiers to quizzes; the two
  `time.strftime` calls of one upload are modelled by a single `now` argument
  (timestamps play no role in the verified properties beyond being carried
  along).
-/

namespace Silverleaf

/-! ## Data model of the curriculum editor -/

/-- One record of the `training_program` list: a dict
`{"week_number": ..., "name": ...}`. -/
structure Week where
  week_number : Int
  name : String
  deriving DecidableEq, Repr

/-- The initial `training_program` list (lines 8–14 of
`training_program_editor.py`). -/
def training_program : List Week :=
  [ ⟨1, "Classroom Management Techniques"⟩
  , ⟨2, "Student Engagement Strategies"⟩
  , ⟨3, "Assessment and Evaluation Methods"⟩
  , ⟨4, "Differentiated Instruction Approaches"⟩
  , ⟨5, "Technology Integration in Teaching"⟩ ]

/-- The console message printed by an editor operation, abstracted to a tag.
Each constructor corresponds to one `print` in the Python source. -/
inductive EditorMsg where
  | cannotRenameNoWeeks
  | errInvalidWeekNumber
  | errEmptyName
  | renamedOk
  | cannotReorderTooFew
  | errInvalidWeekToMove
  | errInvalidNewPosition
  | alreadyAtPosition
  | movedOk
  deriving DecidableEq, Repr

/-- Whether a message is a validation error.  In the source these are exactly
the messages printed with an `Error:` or `Cannot ...` prefix; the no-op
message `"Week is already at that position. No changes made."` and the two
success messages are not errors. -/
def EditorMsg.isError : EditorMsg → Bool
  | .cannotRenameNoWeeks => true
  | .errInvalidWeekNumber => true
  | .errEmptyName => true
  | .cannotReorderTooFew => true
  | .errInvalidWeekToMove => true
  | .errInvalidNewPosition => true
  | .renamedOk => false
  | .alreadyAtPosition => false
  | .movedOk => false

/-- The update loop of `rename_week` (lines 54–61): walk the list and replace
the name of the first record whose `week_number` equals the requested week,
leaving everything after the `break` untouched. -/
def renameLoop : List Week → Int → String → List Week
  | [], _, _ => []
  | w :: ws, p, n =>
    if w.week_number = p then ⟨w.week_number, n⟩ :: ws
    else w :: renameLoop ws p n

/-- Python's `str.strip()` with no argument: drop leading and trailing
whitespace characters. -/
def pyStrip (s : String) : String :=
  ⟨((s.data.dropWhile Char.isWhitespace).reverse.dropWhile Char.isWhitespace).reverse⟩

/-- `rename_week` (lines 32–64): `week_num` is the integer parsed from the
console, `raw_name` the second input line (stripped before the emptiness
check).  Returns the printed outcome and the list after the call. -/
def rename_week (l : List Week) (week_num : Int) (raw_name : String) :
    EditorMsg × List Week :=
  if l = [] then (.cannotRenameNoWeeks, l)
  else if week_num < 1 ∨ week_num > (l.length : Int) then (.errInvalidWeekNumber, l)
  else if pyStrip raw_name = "" then (.errEmptyName, l)
  else (.renamedOk, renameLoop l week_num (pyStrip raw_name))

/-- The renumbering pass of `reorder_weeks` (lines 102–104):
`for index, week in enumerate(training_program): week['week_number'] = index + 1`,
generalised over the number to give the head. -/
def renumberFrom : Int → List Week → List Week
  | _, [] => []
  | n, w :: ws => ⟨n, w.name⟩ :: renumberFrom (n + 1) ws

/-- `reorder_weeks` (lines 67–112): both positions are integers parsed from
the console.  On the success path the record at index `week_to_move - 1` is
popped, reinserted at index `new_position - 1` and the whole list is
renumbered `1..N`. -/
def reorder_weeks (l : List Week) (week_to_move new_position : Int) :
    EditorMsg × List Week :=
  if (l.length : Int) < 2 then (.cannotReorderTooFew, l)
  else if week_to_move < 1 ∨ week_to_move > (l.length : Int) then
    (.errInvalidWeekToMove, l)
  else if new_position < 1 ∨ new_position > (l.length : Int) then
    (.errInvalidNewPosition, l)
  else if week_to_move = new_position then (.alreadyAtPosition, l)
  else
    let week_data := l.getD (week_to_move - 1).toNat ⟨0, ""⟩
    let removed := l.eraseIdx (week_to_move - 1).toNat
    let inserted := removed.insertIdx (new_position - 1).toNat week_data
    (.movedOk, renumberFrom 1 inserted)

/-- `posFrom n l`: the `week_number` fields of `l` read `n, n+1, ...` in list
order. -/
def posFrom : Int → List Week → Bool
  | _, [] => true
  | n, w :: ws => w.week_number == n && posFrom (n + 1) ws

/-- The 1..N invariant: positions form an unbroken `1..N` run matching list
order exactly. -/
def positionsOk (l : List Week) : Bool := posFrom 1 l

/-- The editor states reachable from the initial program by any sequence of
(possibly failing) rename and reorder operations — the main loop never
mutates the list in any other way. -/
inductive Reachable : List Week → Prop
  | init : Reachable training_program
  | rename (l : List Week) (p : Int) (s : String) :
      Reachable l → Reachable (rename_week l p s).2
  | reorder (l : List Week) (f t : Int) :
      Reachable l → Reachable (reorder_weeks l f t).2

/-! ## Data model of the quiz cache -/

/-- One value of `QUIZ_CACHE`: a dict with keys `quiz_id`, `questions`,
`generated_at`. -/
structure Quiz where
  quiz_id : String
  questions : List String
  generated_at : String
  deriving DecidableEq, Repr

/-- The cache dict, embedded as a map from identifier to quiz. -/
abbrev Cache := String → Option Quiz

/-- The initial `QUIZ_CACHE = {}`. -/
def emptyCache : Cache := fun _ => none

/-- Dict assignment `cache[k] = q`. -/
def cacheSet (c : Cache) (k : String) (q : Quiz) : Cache :=
  fun k2 => if k2 = k then some q else c k2

/-- The content-specific quiz built by `admin_upload_content`
(lines 21–29 of `quiz_generation_system.py`). -/
def contentQuiz (content_name now : String) : Quiz :=
  ⟨content_name
  , [ "Question 1 about " ++ content_name
    , "Question 2 about " ++ content_name
    , "Question 3 about " ++ content_name ]
  , now⟩

/-- The two derived strings appended to the weekly checkpoint quiz
(lines 44–47). -/
def checkpointQuestions (content_name : String) : List String :=
  [ "Checkpoint question from " ++ content_name ++ " - Part 1"
  , "Checkpoint question from " ++ content_name ++ " - Part 2" ]

/-- `admin_upload_content` (lines 7–56): store the content quiz under
`content_name`, create the `"{week_id} Checkpoint"` entry if absent, then
extend that entry with the two derived questions.  The simulated
`time.sleep(7)` has no observable effect on the cache and is dropped. -/
def admin_upload_content (cache : Cache) (content_name week_id now : String) :
    Cache :=
  let cache1 := cacheSet cache content_name (contentQuiz content_name now)
  let checkpoint_quiz_id := week_id ++ " Checkpoint"
  let cache2 :=
    match cache1 checkpoint_quiz_id with
    | some _ => cache1
    | none => cacheSet cache1 checkpoint_quiz_id ⟨checkpoint_quiz_id, [], now⟩
  match cache2 checkpoint_quiz_id with
  | some q =>
      cacheSet cache2 checkpoint_quiz_id
        ⟨q.quiz_id, q.questions ++ checkpointQuestions content_name, q.generated_at⟩
  | none => cache2

/-- `retrieve_quiz_instantly` (lines 59–81): a lookup that only reads the
cache.  The first component is the retrieved quiz (`none` = the printed
`"not found"` path), the second the cache after the call. -/
def retrieve_quiz_instantly (cache : Cache) (quiz_id : String) :
    Option Quiz × Cache :=
  match cache quiz_id with
  | some q => (some q, cache)
  | none => (none, cache)

/-! ## Helper lemmas about the editor operations -/

/-- The rename loop never touches the `week_number` column, so the
position-run predicate is unchanged. -/
theorem posFrom_renameLoop (p : Int) (s : String) :
    ∀ (l : List Week) (n : Int), posFrom n (renameLoop l p s) = posFrom n l := by
  intro l
  induction l with
  | nil => intro n; rfl
  | cons w ws ih =>
    intro n
    by_cases h : w.week_number = p
    · simp [renameLoop, h, posFrom]
    · simp [renameLoop, h, posFrom, ih]

/-- Renumbering preserves the length of the list. -/
theorem length_renumberFrom :
    ∀ (n : Int) (l : List Week), (renumberFrom n l).length = l.length := by
  intro n l
  induction l generalizing n with
  | nil => rfl
  | cons w ws ih => simp [renumberFrom, ih]

/-- Renumbering preserves the `name` column. -/
theorem map_name_renumberFrom :
    ∀ (n : Int) (l : List Week), (renumberFrom n l).map Week.name = l.map Week.name := by
  intro n l
  induction l generalizing n with
  | nil => rfl
  | cons w ws ih => simp [renumberFrom, ih]

/-- Renumbering from `n` establishes the position run starting at `n`. -/
theorem posFrom_renumberFrom :
    ∀ (l : List Week) (n : Int), posFrom n (renumberFrom n l) = true := by
  intro l
  induction l with
  | nil => intro n; rfl
  | cons w ws ih => intro n; simp [renumberFrom, posFrom, ih]

/-- Any rename call — successful or failing — preserves the position
invariant. -/
theorem positionsOk_rename_week (l : List Week) (p : Int) (s : String)
    (h : positionsOk l = true) : positionsOk (rename_week l p s).2 = true := by
  unfold rename_week
  split
  next => exact h
  next =>
    split
    next => exact h
    next =>
      split
      next => exact h
      next =>
        show positionsOk (renameLoop l p (pyStrip s)) = true
        unfold positionsOk at h ⊢
        rw [posFrom_renameLoop]
        exact h

/-- Any reorder call — successful, failing or a no-op — preserves the
position invariant. -/
theorem positionsOk_reorder_weeks (l : List Week) (f t : Int)
    (h : positionsOk l = true) : positionsOk (reorder_weeks l f t).2 = true := by
  unfold reorder_weeks
  split
  next => exact h
  next =>
    split
    next => exact h
    next =>
      split
      next => exact h
      next =>
        split
        next => exact h
        next => exact posFrom_renumberFrom _ 1

/-- Under the position run starting at `n`, the rename loop hits exactly the
record at index `j` when asked for week `n + j`, and replaces it by the same
position paired with the new name. -/
theorem renameLoop_eq_set (s : String) :
    ∀ (l : List Week) (n : Int) (j : Nat), posFrom n l = true → j < l.length →
      renameLoop l (n + (j : Int)) s = l.set j ⟨n + (j : Int), s⟩ := by
  intro l
  induction l with
  | nil => intro n j _ hj; simp at hj
  | cons w ws ih =>
    intro n j hpos hj
    simp only [posFrom, Bool.and_eq_true, beq_iff_eq] at hpos
    obtain ⟨hw, hrest⟩ := hpos
    cases j with
    | zero =>
      simp only [Nat.cast_zero, add_zero]
      simp [renameLoop, hw]
    | succ k =>
      have hne : w.week_number ≠ n + ((k + 1 : Nat) : Int) := by
        rw [hw]; push_cast; omega
      have harg : n + ((k + 1 : Nat) : Int) = (n + 1) + (k : Int) := by
        push_cast; ring
      simp only [renameLoop, if_neg hne]
      rw [harg, ih (n + 1) k hrest (by simpa using hj)]
      rfl

/-- Under the position run starting at `n`, the record at index `i` carries
position `n + i`. -/
theorem week_number_of_posFrom :
    ∀ (l : List Week) (n : Int), posFrom n l = true →
      ∀ (i : Nat) (hi : i < l.length), (l.get ⟨i, hi⟩).week_number = n + (i : Int) := by
  intro l
  induction l with
  | nil => intro n _ i hi; simp at hi
  | cons w ws ih =>
    intro n hpos i hi
    simp only [posFrom, Bool.and_eq_true, beq_iff_eq] at hpos
    obtain ⟨hw, hrest⟩ := hpos
    cases i with
    | zero => simpa using hw
    | succ k =>
      have := ih (n + 1) hrest k (by simpa using hi)
      simp only [List.get_cons_succ] at *
      rw [this]; push_cast; ring

/-- The validated success path of `reorder_weeks`, as one equation: pop the
record at index `from - 1`, reinsert it at index `to - 1`, renumber. -/
theorem reorder_weeks_moved (l : List Week) (f t : Int) (h2 : 2 ≤ l.length)
    (hf1 : 1 ≤ f) (hf2 : f ≤ (l.length : Int)) (ht1 : 1 ≤ t)
    (ht2 : t ≤ (l.length : Int)) (hne : f ≠ t) :
    reorder_weeks l f t =
      (.movedOk, renumberFrom 1
        ((l.eraseIdx (f - 1).toNat).insertIdx (t - 1).toNat
          (l.getD (f - 1).toNat ⟨0, ""⟩))) := by
  unfold reorder_weeks
  rw [if_neg (by omega), if_neg (by omega), if_neg (by omega), if_neg hne]

/-- The validated no-op path of `reorder_weeks`, as one equation. -/
theorem reorder_weeks_noop (l : List Week) (p : Int) (h2 : 2 ≤ l.length)
    (hp1 : 1 ≤ p) (hp2 : p ≤ (l.length : Int)) :
    reorder_weeks l p p = (.alreadyAtPosition, l) := by
  unfold reorder_weeks
  rw [if_neg (by omega), if_neg (by omega), if_neg (by omega), if_pos rfl]

/-- Mapping a function commutes with insertion at an index. -/
theorem map_insertIdx (f : α → β) :
    ∀ (n : Nat) (a : α) (l : List α),
      (List.insertIdx n a l).map f = List.insertIdx n (f a) (l.map f) := by
  intro n
  induction n with
  | zero => intro a l; simp
  | succ k ih =>
    intro a l
    cases l with
    | nil => simp
    | cons x xs => simp [ih]

/-- Mapping a function commutes with removal at an index. -/
theorem map_eraseIdx (f : α → β) :
    ∀ (l : List α) (i : Nat), (l.eraseIdx i).map f = (l.map f).eraseIdx i := by
  intro l
  induction l with
  | nil => intro i; simp
  | cons x xs ih =>
    intro i
    cases i with
    | zero => simp
    | succ k => simp [ih]

/-- Insertion at a valid index is, up to permutation, consing. -/
theorem insertIdx_perm_cons (a : α) :
    ∀ (n : Nat) (l : List α), n ≤ l.length →
      (List.insertIdx n a l).Perm (a :: l) := by
  intro n
  induction n with
  | zero =>
    intro l _
    rw [List.insertIdx_zero]
  | succ k ih =>
    intro l hl
    cases l with
    | nil => simp at hl
    | cons x xs =>
      simp only [List.insertIdx_succ_cons]
      exact ((ih xs (by simpa using hl)).cons x).trans (List.Perm.swap a x xs)

/-- A list is a permutation of its element at a valid index consed onto the
remainder after removing that index. -/
theorem perm_getD_cons_eraseIdx (d : α) :
    ∀ (l : List α) (i : Nat), i < l.length →
      l.Perm (l.getD i d :: l.eraseIdx i) := by
  intro l
  induction l with
  | nil => intro i hi; simp at hi
  | cons x xs ih =>
    intro i hi
    cases i with
    | zero =>
      rw [List.getD_cons_zero, List.eraseIdx_cons_zero]
    | succ k =>
      rw [List.getD_cons_succ, List.eraseIdx_cons_succ]
      exact ((ih k (by simpa using hi)).cons x).trans (List.Perm.swap _ x _)

/-- Reading a name through `map Week.name` agrees with reading the record and
projecting, defaults included. -/
theorem getD_map_name (l : List Week) (i : Nat) :
    (l.map Week.name).getD i "" = (l.getD i ⟨0, ""⟩).name := by
  rw [List.getD_eq_getElem?_getD, List.getD_eq_getElem?_getD, List.getElem?_map]
  cases l[i]? <;> rfl

/-! ## Claims about the curriculum editor -/

/-- C2: every editor state reachable from the initial curriculum list by any
sequence of rename and reposition operations — successful or failing — has
`week_number` fields forming the unbroken contiguous run `1..N` matching list
order exactly; in particular the initial list itself does. -/
theorem C2_positions_invariant_reachable (l : List Week) (h : Reachable l) :
    positionsOk l = true := by
  induction h with
  | init => decide
  | rename l p s _ ih => exact positionsOk_rename_week l p s ih
  | reorder l f t _ ih => exact positionsOk_reorder_weeks l f t ih

/-- C2 witness: the invariant holds at the initial program and at the state
reached by moving week 1 to position 3. -/
theorem C2_positions_invariant_reachable_witness :
    Reachable (reorder_weeks training_program 1 3).2 ∧
      positionsOk (reorder_weeks training_program 1 3).2 = true :=
  ⟨Reachable.reorder training_program 1 3 Reachable.init,
    C2_positions_invariant_reachable (reorder_weeks training_program 1 3).2
      (Reachable.reorder training_program 1 3 Reachable.init)⟩

/-- C6: a valid rename on a sequence satisfying the 1..N invariant replaces
the record at index `p-1` by the same position paired with the stripped new
name, and nothing else: the length, the whole `week_number` column and every
record at any other index are unchanged, and the record at index `p-1`
carries the new name. -/
theorem C6_rename_updates_only_target (l : List Week) (p : Int) (raw : String)
    (hinv : positionsOk l = true) (hp1 : 1 ≤ p) (hp2 : p ≤ (l.length : Int))
    (hname : pyStrip raw ≠ "") :
    rename_week l p raw = (.renamedOk, l.set (p - 1).toNat ⟨p, pyStrip raw⟩) ∧
      (rename_week l p raw).2.length = l.length ∧
      (rename_week l p raw).2.map Week.week_number = l.map Week.week_number ∧
      (∀ i : Nat, i ≠ (p - 1).toNat → (rename_week l p raw).2[i]? = l[i]?) ∧
      ((rename_week l p raw).2.getD (p - 1).toNat ⟨0, ""⟩).name = pyStrip raw := by
  have hlen : 1 ≤ l.length := by omega
  have hlne : l ≠ [] := by
    cases l
    · simp at hlen
    · simp
  have hj : (p - 1).toNat < l.length := by omega
  have hp : p = 1 + (((p - 1).toNat : Nat) : Int) := by omega
  have hset : renameLoop l p (pyStrip raw) = l.set (p - 1).toNat ⟨p, pyStrip raw⟩ := by
    conv_lhs => rw [hp]
    rw [renameLoop_eq_set (pyStrip raw) l 1 (p - 1).toNat hinv hj, ← hp]
  have e : rename_week l p raw = (.renamedOk, l.set (p - 1).toNat ⟨p, pyStrip raw⟩) := by
    unfold rename_week
    rw [if_neg hlne, if_neg (by omega), if_neg (by simpa using hname), hset]
  refine ⟨e, ?_, ?_, ?_, ?_⟩
  · rw [e]; exact List.length_set l _ _
  · rw [e]
    show (l.set (p - 1).toNat ⟨p, pyStrip raw⟩).map Week.week_number = l.map Week.week_number
    rw [List.map_set]
    apply List.ext_getElem?
    intro n
    by_cases hn : n = (p - 1).toNat
    · subst hn
      have hlm : (p - 1).toNat < (l.map Week.week_number).length := by simpa using hj
      rw [List.getElem?_set_self hlm, List.getElem?_map, List.getElem?_eq_getElem hj]
      have hwn := week_number_of_posFrom l 1 hinv (p - 1).toNat hj
      simp only [List.get_eq_getElem] at hwn
      simp only [Option.map_some', hwn]
      exact congrArg some (by omega)
    · exact List.getElem?_set_ne (Ne.symm hn)
  · intro i hi
    rw [e]
    show (l.set (p - 1).toNat ⟨p, pyStrip raw⟩)[i]? = l[i]?
    exact List.getElem?_set_ne (Ne.symm hi)
  · rw [e]
    show ((l.set (p - 1).toNat ⟨p, pyStrip raw⟩).getD (p - 1).toNat ⟨0, ""⟩).name = pyStrip raw
    rw [List.getD_eq_getElem _ _ (by simpa using hj), List.getElem_set_self]

/-- C6 witness: renaming week 2 of a two-week list to `" New Name "` strips
the whitespace and touches only the second record. -/
theorem C6_rename_updates_only_target_witness :
    positionsOk [⟨1, "A"⟩, ⟨2, "B"⟩] = true ∧ pyStrip " New Name " ≠ "" ∧
      rename_week [⟨1, "A"⟩, ⟨2, "B"⟩] 2 " New Name "
        = (.renamedOk, [⟨1, "A"⟩, ⟨2, "New Name"⟩]) := by
  refine ⟨by decide, by decide, ?_⟩
  have h := C6_rename_updates_only_target [⟨1, "A"⟩, ⟨2, "B"⟩] 2 " New Name "
    (by decide) (by decide) (by decide) (by decide)
  rw [h.1]
  decide

/-- C1: on an invariant-satisfying list of length at least 2, repositioning
with valid distinct `from` and `to` succeeds; the result has the same length,
its name column is the input's name column with the entry at index `from - 1`
removed and reinserted at index `to - 1` (splice semantics), its positions
again read exactly `1..N` in list order, and the record now at index `to - 1`
carries the name of the record that was at index `from - 1`. -/
theorem C1_reposition_moves_and_renumbers (l : List Week) (f t : Int)
    (hinv : positionsOk l = true) (h2 : 2 ≤ l.length)
    (hf1 : 1 ≤ f) (hf2 : f ≤ (l.length : Int))
    (ht1 : 1 ≤ t) (ht2 : t ≤ (l.length : Int)) (hne : f ≠ t) :
    (reorder_weeks l f t).1 = .movedOk ∧
      (reorder_weeks l f t).2.length = l.length ∧
      positionsOk (reorder_weeks l f t).2 = true ∧
      (reorder_weeks l f t).2.map Week.name =
        List.insertIdx (t - 1).toNat ((l.map Week.name).getD (f - 1).toNat "")
          ((l.map Week.name).eraseIdx (f - 1).toNat) ∧
      ((reorder_weeks l f t).2.getD (t - 1).toNat ⟨0, ""⟩).name =
        (l.getD (f - 1).toNat ⟨0, ""⟩).name := by
  have hi : (f - 1).toNat < l.length := by omega
  have e := reorder_weeks_moved l f t h2 hf1 hf2 ht1 ht2 hne
  have hlenE : (l.eraseIdx (f - 1).toNat).length = l.length - 1 := by
    rw [List.length_eraseIdx, if_pos hi]
  have hjE : (t - 1).toNat ≤ (l.eraseIdx (f - 1).toNat).length := by omega
  have hlenI :
      ((l.eraseIdx (f - 1).toNat).insertIdx (t - 1).toNat
        (l.getD (f - 1).toNat ⟨0, ""⟩)).length = l.length := by
    rw [List.length_insertIdx _ _ hjE, hlenE]
    omega
  refine ⟨by rw [e], ?_, ?_, ?_, ?_⟩
  · rw [e]
    show (renumberFrom 1 _).length = l.length
    rw [length_renumberFrom]
    exact hlenI
  · rw [e]
    exact posFrom_renumberFrom _ 1
  · rw [e]
    show (renumberFrom 1 _).map Week.name = _
    rw [map_name_renumberFrom, map_insertIdx, map_eraseIdx, getD_map_name]
  · rw [e]
    show ((renumberFrom 1 _).getD (t - 1).toNat ⟨0, ""⟩).name = _
    rw [← getD_map_name, ← getD_map_name, map_name_renumberFrom, map_insertIdx,
      map_eraseIdx]
    have hjI : (t - 1).toNat <
        (List.insertIdx (t - 1).toNat ((l.getD (f - 1).toNat ⟨0, ""⟩).name)
          ((l.map Week.name).eraseIdx (f - 1).toNat)).length := by
      rw [List.length_insertIdx, ← map_eraseIdx, List.length_map, hlenE]
      · omega
      · rw [← map_eraseIdx, List.length_map]
        exact hjE
    rw [List.getD_eq_getElem _ _ hjI, List.getElem_insertIdx_self, getD_map_name]
    rw [← map_eraseIdx, List.length_map]
    exact hjE

/-- C1 witness: the spec's own example — moving position 1 of
`[(1,A),(2,B),(3,C)]` to position 3 yields `[(1,B),(2,C),(3,A)]`. -/
theorem C1_reposition_moves_and_renumbers_witness :
    positionsOk [⟨1, "A"⟩, ⟨2, "B"⟩, ⟨3, "C"⟩] = true ∧ (1 : Int) ≠ 3 ∧
      (reorder_weeks [⟨1, "A"⟩, ⟨2, "B"⟩, ⟨3, "C"⟩] 1 3).1 = .movedOk ∧
      (reorder_weeks [⟨1, "A"⟩, ⟨2, "B"⟩, ⟨3, "C"⟩] 1 3).2 =
        [⟨1, "B"⟩, ⟨2, "C"⟩, ⟨3, "A"⟩] := by
  refine ⟨by decide, by decide, ?_, by decide⟩
  exact (C1_reposition_moves_and_renumbers [⟨1, "A"⟩, ⟨2, "B"⟩, ⟨3, "C"⟩] 1 3
    (by decide) (by decide) (by decide) (by decide) (by decide) (by decide)
    (by decide)).1

/-- C10: any reposition with valid positions (equal or not) on a list of
length at least 2 preserves the multiset of names: the resulting name column
is a permutation of the input's — nothing is lost, nothing is duplicated. -/
theorem C10_reorder_preserves_name_multiset (l : List Week) (f t : Int)
    (h2 : 2 ≤ l.length) (hf1 : 1 ≤ f) (hf2 : f ≤ (l.length : Int))
    (ht1 : 1 ≤ t) (ht2 : t ≤ (l.length : Int)) :
    ((reorder_weeks l f t).2.map Week.name).Perm (l.map Week.name) := by
  by_cases hne : f = t
  · subst hne
    rw [reorder_weeks_noop l f h2 hf1 hf2]
  · have hi : (f - 1).toNat < l.length := by omega
    rw [reorder_weeks_moved l f t h2 hf1 hf2 ht1 ht2 hne]
    show ((renumberFrom 1 _).map Week.name).Perm (l.map Week.name)
    rw [map_name_renumberFrom, map_insertIdx, map_eraseIdx]
    have hjE : (t - 1).toNat ≤ ((l.map Week.name).eraseIdx (f - 1).toNat).length := by
      rw [← map_eraseIdx, List.length_map, List.length_eraseIdx, if_pos hi]
      omega
    refine (insertIdx_perm_cons _ _ _ hjE).trans ?_
    have h := perm_getD_cons_eraseIdx "" (l.map Week.name) (f - 1).toNat
      (by simpa using hi)
    rw [getD_map_name] at h
    exact h.symm

/-- C10 witness: moving position 3 of a three-element list to position 1
permutes the names. -/
theorem C10_reorder_preserves_name_multiset_witness :
    2 ≤ ([⟨1, "A"⟩, ⟨2, "B"⟩, ⟨3, "C"⟩] : List Week).length ∧
      ((reorder_weeks [⟨1, "A"⟩, ⟨2, "B"⟩, ⟨3, "C"⟩] 3 1).2.map Week.name).Perm
        (([⟨1, "A"⟩, ⟨2, "B"⟩, ⟨3, "C"⟩] : List Week).map Week.name) :=
  ⟨by decide,
    C10_reorder_preserves_name_multiset [⟨1, "A"⟩, ⟨2, "B"⟩, ⟨3, "C"⟩] 3 1
      (by decide) (by decide) (by decide) (by decide) (by decide)⟩

/-- C3: reposition with `from` or `to` outside `[1, N]`, or `N < 2`, reports a
validation error and leaves the sequence entirely unchanged. -/
theorem C3_reorder_invalid_input_unchanged (l : List Week) (f t : Int)
    (h : f < 1 ∨ (l.length : Int) < f ∨ t < 1 ∨ (l.length : Int) < t ∨ l.length < 2) :
    (reorder_weeks l f t).1.isError = true ∧ (reorder_weeks l f t).2 = l := by
  unfold reorder_weeks
  split
  next => exact ⟨rfl, rfl⟩
  next h1 =>
    split
    next => exact ⟨rfl, rfl⟩
    next h2 =>
      split
      next => exact ⟨rfl, rfl⟩
      next h3 =>
        exfalso
        omega

/-- C3 witness: on a two-element list, `from = 0` is rejected and the list is
returned unchanged. -/
theorem C3_reorder_invalid_input_unchanged_witness :
    ((0 : Int) < 1 ∨ (([⟨1, "A"⟩, ⟨2, "B"⟩] : List Week).length : Int) < 0 ∨ (2 : Int) < 1 ∨
        (([⟨1, "A"⟩, ⟨2, "B"⟩] : List Week).length : Int) < 2 ∨
        ([⟨1, "A"⟩, ⟨2, "B"⟩] : List Week).length < 2) ∧
      (reorder_weeks [⟨1, "A"⟩, ⟨2, "B"⟩] 0 2).1.isError = true ∧
      (reorder_weeks [⟨1, "A"⟩, ⟨2, "B"⟩] 0 2).2 = [⟨1, "A"⟩, ⟨2, "B"⟩] :=
  ⟨by decide, C3_reorder_invalid_input_unchanged [⟨1, "A"⟩, ⟨2, "B"⟩] 0 2 (by decide)⟩

/-- C4: reposition with `from = to = p`, both valid, is a successful no-op:
the message is the non-error "already at that position" notice and the list —
order and every position field — is returned unchanged. -/
theorem C4_reorder_same_position_noop (l : List Week) (p : Int)
    (h2 : 2 ≤ l.length) (hp1 : 1 ≤ p) (hp2 : p ≤ (l.length : Int)) :
    reorder_weeks l p p = (.alreadyAtPosition, l) ∧
      (reorder_weeks l p p).1.isError = false := by
  have e : reorder_weeks l p p = (.alreadyAtPosition, l) := by
    unfold reorder_weeks
    rw [if_neg (by omega), if_neg (by omega), if_neg (by omega), if_pos rfl]
  exact ⟨e, by rw [e]; rfl⟩

/-- C4 witness: moving week 2 of a three-week list onto itself changes
nothing. -/
theorem C4_reorder_same_position_noop_witness :
    2 ≤ ([⟨1, "A"⟩, ⟨2, "B"⟩, ⟨3, "C"⟩] : List Week).length ∧
      (1 : Int) ≤ 2 ∧ (2 : Int) ≤ (([⟨1, "A"⟩, ⟨2, "B"⟩, ⟨3, "C"⟩] : List Week).length : Int) ∧
      (reorder_weeks [⟨1, "A"⟩, ⟨2, "B"⟩, ⟨3, "C"⟩] 2 2 = (.alreadyAtPosition, [⟨1, "A"⟩, ⟨2, "B"⟩, ⟨3, "C"⟩]) ∧
        (reorder_weeks [⟨1, "A"⟩, ⟨2, "B"⟩, ⟨3, "C"⟩] 2 2).1.isError = false) :=
  ⟨by decide, by decide, by decide,
    C4_reorder_same_position_noop [⟨1, "A"⟩, ⟨2, "B"⟩, ⟨3, "C"⟩] 2 (by decide) (by decide) (by decide)⟩

/-- C5: rename with a position outside `[1, N]` or a name that is empty after
trimming reports a validation error and leaves the sequence (names included)
unchanged. -/
theorem C5_rename_invalid_input_unchanged (l : List Week) (p : Int) (raw : String)
    (h : p < 1 ∨ (l.length : Int) < p ∨ pyStrip raw = "") :
    (rename_week l p raw).1.isError = true ∧ (rename_week l p raw).2 = l := by
  unfold rename_week
  split
  next => exact ⟨rfl, rfl⟩
  next h0 =>
    split
    next => exact ⟨rfl, rfl⟩
    next h1 =>
      split
      next => exact ⟨rfl, rfl⟩
      next h2 =>
        exfalso
        rcases h with h | h | h
        · exact h1 (Or.inl h)
        · exact h1 (Or.inr h)
        · exact h2 h

/-- C5 witness: a whitespace-only name is rejected and the list is returned
unchanged. -/
theorem C5_rename_invalid_input_unchanged_witness :
    ((1 : Int) < 1 ∨ (([⟨1, "A"⟩] : List Week).length : Int) < 1 ∨ pyStrip "  " = "") ∧
      (rename_week [⟨1, "A"⟩] 1 "  ").1.isError = true ∧
      (rename_week [⟨1, "A"⟩] 1 "  ").2 = [⟨1, "A"⟩] :=
  ⟨by decide, C5_rename_invalid_input_unchanged [⟨1, "A"⟩] 1 "  " (by decide)⟩

/-! ## Claims about the quiz cache -/

/-- Pointwise evaluation of one generate call: the checkpoint key gets the
(extended or fresh) aggregate entry, every other key reads from the cache
with the content entry stored. -/
theorem admin_upload_content_apply (cache : Cache) (c g t k : String) :
    admin_upload_content cache c g t k =
      if k = g ++ " Checkpoint" then
        match cacheSet cache c (contentQuiz c t) (g ++ " Checkpoint") with
        | some q =>
            some ⟨q.quiz_id, q.questions ++ checkpointQuestions c, q.generated_at⟩
        | none => some ⟨g ++ " Checkpoint", checkpointQuestions c, t⟩
      else cacheSet cache c (contentQuiz c t) k := by
  unfold admin_upload_content
  cases h1 : cacheSet cache c (contentQuiz c t) (g ++ " Checkpoint") with
  | some q =>
    simp only [h1]
    by_cases hk : k = g ++ " Checkpoint"
    · rw [if_pos hk]
      subst hk
      simp [cacheSet]
    · rw [if_neg hk]
      simp [cacheSet, hk]
  | none =>
    simp only [h1]
    by_cases hk : k = g ++ " Checkpoint"
    · rw [if_pos hk]
      subst hk
      simp [cacheSet]
    · rw [if_neg hk]
      simp [cacheSet, hk]

/-- C7 counterexample: from a fresh cache, two generate calls with the
distinct content identifiers `"W Checkpoint"` and `"B"` under the same group
id `"W"` leave the group's aggregate entry holding seven questions — the
first call's three content questions land in the aggregate entry because the
first content identifier collides with the aggregate key — not just the four
derived checkpoint questions of the two calls. -/
theorem C7_checkpoint_exactly_counterexample :
    ("W Checkpoint" : String) ≠ "B" ∧
      ((admin_upload_content (admin_upload_content emptyCache "W Checkpoint" "W" "t1")
          "B" "W" "t2") "W Checkpoint").map Quiz.questions ≠
        some (checkpointQuestions "W Checkpoint" ++ checkpointQuestions "B") ∧
      ((admin_upload_content (admin_upload_content emptyCache "W Checkpoint" "W" "t1")
          "B" "W" "t2") "W Checkpoint").map Quiz.questions =
        some ((contentQuiz "W Checkpoint" "t1").questions ++
          checkpointQuestions "W Checkpoint" ++ checkpointQuestions "B") := by
  refine ⟨by decide, by decide, by decide⟩

/-- C7 (amended): from a fresh cache, two generate calls with distinct
content identifiers under the same group id, neither identifier equal to the
group's checkpoint key, produce an aggregate entry created by the first call
with exactly its two derived questions and extended by the second call to
exactly the four derived questions in call order, keeping the first call's
timestamp. -/
theorem C7_checkpoint_accumulates (c1 c2 g t1 t2 : String) (h12 : c1 ≠ c2)
    (h1 : c1 ≠ g ++ " Checkpoint") (h2 : c2 ≠ g ++ " Checkpoint") :
    admin_upload_content emptyCache c1 g t1 (g ++ " Checkpoint") =
      some ⟨g ++ " Checkpoint", checkpointQuestions c1, t1⟩ ∧
    admin_upload_content (admin_upload_content emptyCache c1 g t1) c2 g t2
        (g ++ " Checkpoint") =
      some ⟨g ++ " Checkpoint", checkpointQuestions c1 ++ checkpointQuestions c2, t1⟩ := by
  have k1 : (g ++ " Checkpoint") ≠ c1 := Ne.symm h1
  have k2 : (g ++ " Checkpoint") ≠ c2 := Ne.symm h2
  have e1 : admin_upload_content emptyCache c1 g t1 (g ++ " Checkpoint") =
      some ⟨g ++ " Checkpoint", checkpointQuestions c1, t1⟩ := by
    rw [admin_upload_content_apply, if_pos rfl]
    have h : cacheSet emptyCache c1 (contentQuiz c1 t1) (g ++ " Checkpoint") = none := by
      simp [cacheSet, emptyCache, k1]
    rw [h]
  refine ⟨e1, ?_⟩
  rw [admin_upload_content_apply, if_pos rfl]
  have h : cacheSet (admin_upload_content emptyCache c1 g t1) c2 (contentQuiz c2 t2)
      (g ++ " Checkpoint") = some ⟨g ++ " Checkpoint", checkpointQuestions c1, t1⟩ := by
    rw [cacheSet, if_neg k2]
    exact e1
  rw [h]

/-- C7 witness: content ids `"A"` and `"B"` under group `"W"` accumulate the
four derived questions in call order. -/
theorem C7_checkpoint_accumulates_witness :
    ("A" : String) ≠ "B" ∧ ("A" : String) ≠ "W" ++ " Checkpoint" ∧
      ("B" : String) ≠ "W" ++ " Checkpoint" ∧
      admin_upload_content (admin_upload_content emptyCache "A" "W" "t1") "B" "W" "t2"
          ("W" ++ " Checkpoint") =
        some ⟨"W" ++ " Checkpoint", checkpointQuestions "A" ++ checkpointQuestions "B", "t1"⟩ := by
  refine ⟨by decide, by decide, by decide, ?_⟩
  exact (C7_checkpoint_accumulates "A" "B" "W" "t1" "t2" (by decide) (by decide)
    (by decide)).2

/-- C9 counterexample: the cache is not append-only at the entry level.  The
first call creates the aggregate entry `"g Checkpoint"` with two questions;
a second call reusing `"g Checkpoint"` as its content identifier replaces
that entry with a fresh three-question content quiz — the previous entry is
discarded, its question list not even a prefix of the new one. -/
theorem C9_append_only_counterexample :
    (admin_upload_content emptyCache "c" "g" "t1") "g Checkpoint" =
      some ⟨"g Checkpoint", checkpointQuestions "c", "t1"⟩ ∧
    (admin_upload_content (admin_upload_content emptyCache "c" "g" "t1")
        "g Checkpoint" "h" "t2") "g Checkpoint" =
      some (contentQuiz "g Checkpoint" "t2") ∧
    (checkpointQuestions "c").isPrefixOf (contentQuiz "g Checkpoint" "t2").questions
      = false := by
  refine ⟨by decide, by decide, by decide⟩

/-- C9 (amended): a generate call never deletes or replaces any entry other
than the one under its own content identifier: an existing entry at a
different key is unchanged unless it is the call's aggregate checkpoint
entry, which is mutated only by appending the two derived questions (id and
timestamp kept).  A call reusing an existing identifier as its content
identifier, by contrast, replaces that entry. -/
theorem C9_append_only_frame (cache : Cache) (c g t k : String) (q : Quiz)
    (hk : k ≠ c) (hq : cache k = some q) :
    (k ≠ g ++ " Checkpoint" → admin_upload_content cache c g t k = some q) ∧
    (k = g ++ " Checkpoint" →
      admin_upload_content cache c g t k =
        some ⟨q.quiz_id, q.questions ++ checkpointQuestions c, q.generated_at⟩) := by
  have hset : cacheSet cache c (contentQuiz c t) k = some q := by
    rw [cacheSet, if_neg hk]
    exact hq
  constructor
  · intro hcp
    rw [admin_upload_content_apply, if_neg hcp]
    exact hset
  · intro hcp
    rw [admin_upload_content_apply, if_pos hcp, ← hcp, hset]

/-- C9 witness: an aggregate entry `"g Checkpoint"` holding one question is
extended, not replaced, by a generate call for content `"c"` in group
`"g"`. -/
theorem C9_append_only_frame_witness :
    ("g Checkpoint" : String) ≠ "c" ∧
      cacheSet emptyCache "g Checkpoint" ⟨"g Checkpoint", ["x"], "t0"⟩ "g Checkpoint" =
        some ⟨"g Checkpoint", ["x"], "t0"⟩ ∧
      admin_upload_content (cacheSet emptyCache "g Checkpoint" ⟨"g Checkpoint", ["x"], "t0"⟩)
          "c" "g" "t" "g Checkpoint" =
        some ⟨"g Checkpoint", ["x"] ++ checkpointQuestions "c", "t0"⟩ := by
  refine ⟨by decide, by decide, ?_⟩
  exact (C9_append_only_frame
    (cacheSet emptyCache "g Checkpoint" ⟨"g Checkpoint", ["x"], "t0"⟩) "c" "g" "t"
    "g Checkpoint" ⟨"g Checkpoint", ["x"], "t0"⟩ (by decide) (by decide)).2 (by decide)

/-- C8: retrieval is a pure lookup: it returns exactly the stored entry
(`none`, the printed "not found" path, when the identifier is absent) and the
cache after the call is the cache before the call, in both branches. -/
theorem C8_retrieve_pure_lookup (cache : Cache) (quiz_id : String) :
    retrieve_quiz_instantly cache quiz_id = (cache quiz_id, cache) := by
  unfold retrieve_quiz_instantly
  cases h : cache quiz_id <;> simp

end Silverleaf
